import Mathlib

/-!
# Verification of the SimInterface control core specification

A shallow embedding of the SimInterface repository: a linear-quadratic
system with a family of controllers (static gain, LQR, MPC, sampling
control) compared through a `simulatePolicy` driver, plus the generic
`Function` wiring utility.

The control core (the `MarkovDecisionProcess` and `Controller` modules) is
not present in the sources; only its caller `testDoubleIntegrator.py` and
the specification describe it.  Those definitions are therefore modelled
from the spec, as their doc comments state.  The `Function` utility is
embedded from `SimInterface/Function.py`.

Linear algebra is over `ℚ` so that every definition is executable.
-/

namespace SimInterface

/-- Modelled from the spec: the `DynamicsMatrix` value object of the
missing `MarkovDecisionProcess` module, bundling the system matrices
`A` (n×n) and `B` (n×m). -/
structure DynamicsMatrix (n m : ℕ) where
  A : Matrix (Fin n) (Fin n) ℚ
  B : Matrix (Fin n) (Fin m) ℚ

/-- Modelled from the spec: the `CostMatrix` value object of the missing
`MarkovDecisionProcess` module, bundling `Cxx` (n×n) and `Cuu` (m×m);
the optional cross term is zero throughout, as in the double-integrator
driver. -/
structure CostMatrix (n m : ℕ) where
  Cxx : Matrix (Fin n) (Fin n) ℚ
  Cuu : Matrix (Fin m) (Fin m) ℚ

/-- Modelled from the spec: `LinearQuadraticSystem` owns one
`DynamicsMatrix`, one `CostMatrix`, a scalar time step `dt` and an
initial state `x0`. -/
structure LinearQuadraticSystem (n m : ℕ) where
  dynamicsMatrix : DynamicsMatrix n m
  costMatrix : CostMatrix n m
  dt : ℚ
  x0 : Fin n → ℚ

variable {n m : ℕ}

/-- Modelled from the spec: `step(x, u) = A·x + B·u`. -/
def step (S : LinearQuadraticSystem n m) (x : Fin n → ℚ) (u : Fin m → ℚ) :
    Fin n → ℚ :=
  S.dynamicsMatrix.A.mulVec x + S.dynamicsMatrix.B.mulVec u

/-- Modelled from the spec: `stageCost(x, u) = xᵀ·Cxx·x + uᵀ·Cuu·u`
(the cross term is zero when unspecified). -/
def stageCost (S : LinearQuadraticSystem n m) (x : Fin n → ℚ) (u : Fin m → ℚ) :
    ℚ :=
  Matrix.dotProduct x (S.costMatrix.Cxx.mulVec x) +
    Matrix.dotProduct u (S.costMatrix.Cuu.mulVec u)

/-- A controller, reduced to its single capability: given state `x` and
time step `t`, return action `u`. -/
def Policy (n m : ℕ) : Type :=
  (Fin n → ℚ) → ℕ → (Fin m → ℚ)

/-- The mutable state of one `simulatePolicy` run: the system (threaded
explicitly so that its treatment by the loop is visible), the trajectory
recorded so far, the current state and the cost accumulator. -/
structure SimState (n m : ℕ) where
  sys : LinearQuadraticSystem n m
  xs : List (Fin n → ℚ)
  x : Fin n → ℚ
  cost : ℚ

/-- One iteration of the simulation loop body:
`u = controller.act(x, t)`; `cost += stageCost(x, u)`;
`x ← step(x, u)`, recording the new state. -/
def simStep (c : Policy n m) (s : SimState n m) (t : ℕ) : SimState n m :=
  let u := c s.x t
  { sys := s.sys
    xs := s.xs ++ [step s.sys s.x u]
    x := step s.sys s.x u
    cost := s.cost + stageCost s.sys s.x u }

/-- Modelled from the spec: the body of `simulatePolicy` — initialize
`x[0] = x0`, then run the loop body for `t` in `0..T-1`. -/
def simLoop (S : LinearQuadraticSystem n m) (c : Policy n m) (T : ℕ) :
    SimState n m :=
  (List.range T).foldl (simStep c) ⟨S, [S.x0], S.x0, 0⟩

/-- Modelled from the spec:
`simulatePolicy(controller) -> (trajectory, totalCost)`. -/
def simulatePolicy (S : LinearQuadraticSystem n m) (c : Policy n m) (T : ℕ) :
    List (Fin n → ℚ) × ℚ :=
  ((simLoop S c T).xs, (simLoop S c T).cost)

/-- The closed form of the state reached after `t` steps. -/
def traj (S : LinearQuadraticSystem n m) (c : Policy n m) : ℕ → Fin n → ℚ
  | 0 => S.x0
  | t + 1 => step S (traj S c t) (c (traj S c t) t)

/-- The closed form of the accumulated cost after `T` steps. -/
def runCost (S : LinearQuadraticSystem n m) (c : Policy n m) (T : ℕ) : ℚ :=
  ∑ t ∈ Finset.range T, stageCost S (traj S c t) (c (traj S c t) t)

theorem simLoop_eq (S : LinearQuadraticSystem n m) (c : Policy n m) :
    ∀ T, simLoop S c T =
      ⟨S, (List.range (T + 1)).map (traj S c), traj S c T, runCost S c T⟩ := by
  intro T
  induction T with
  | zero =>
    simp [simLoop, runCost, List.range_succ]
    rfl
  | succ T ih =>
    have h1 : simLoop S c (T + 1) = simStep c (simLoop S c T) T := by
      simp [simLoop, List.range_succ]
    rw [h1, ih]
    simp [simStep, traj, runCost, List.range_succ, Finset.sum_range_succ]

theorem getD_range_map {α : Type} (f : ℕ → α) (d : α) (N t : ℕ) (h : t < N) :
    ((List.range N).map f).getD t d = f t := by
  have hlen : t < ((List.range N).map f).length := by simpa using h
  rw [List.getD_eq_getElem _ _ hlen]
  simp

/-- The double-integrator system of `testDoubleIntegrator.py`:
`dt = 0.1`, `x0 = [1, 0]`, `A = I + dt·[[0,1],[0,0]]`, `B = dt·[0,1]`,
`Cxx = dt·I`, `Cuu = dt·1`. -/
def doubleIntegrator : LinearQuadraticSystem 2 1 where
  dynamicsMatrix := ⟨!![1, 1/10; 0, 1], !![0; 1/10]⟩
  costMatrix := ⟨!![1/10, 0; 0, 1/10], !![1/10]⟩
  dt := 1/10
  x0 := ![1, 0]

/-- A trivial deterministic policy used as a concrete controller in
witnesses. -/
def zeroPolicy : Policy 2 1 := fun _ _ _ => 0

/-- Matrix inversion over `ℚ`, written executably through the adjugate;
agrees with the usual inverse on invertible matrices and models the
linear-algebra backend's `inv`. -/
def minv {k : ℕ} (M : Matrix (Fin k) (Fin k) ℚ) : Matrix (Fin k) (Fin k) ℚ :=
  M.det⁻¹ • M.adjugate

/-- Modelled from the spec: one gain computation of the missing LQR
controller, `K = -(Cuu + Bᵀ·P·B)⁻¹ · Bᵀ·P·A` for a given next-step value
matrix `P`. -/
def riccatiGain (S : LinearQuadraticSystem n m)
    (P : Matrix (Fin n) (Fin n) ℚ) : Matrix (Fin m) (Fin n) ℚ :=
  -(minv (S.costMatrix.Cuu + S.dynamicsMatrix.B.transpose * P * S.dynamicsMatrix.B)) *
    (S.dynamicsMatrix.B.transpose * P * S.dynamicsMatrix.A)

/-- Modelled from the spec: the backward Riccati recursion run at LQR
construction over a horizon, returning the value matrix at the initial
time together with the list `[K[0], …, K[horizon-1]]` of gains.  The
terminal value matrix is `Cxx`, and each backward step prepends
`K[t] = -(Cuu + Bᵀ·P[t+1]·B)⁻¹·Bᵀ·P[t+1]·A` while updating
`P[t] = Cxx + Aᵀ·P[t+1]·A + Aᵀ·P[t+1]·B·K[t]`. -/
def riccatiList (S : LinearQuadraticSystem n m) :
    ℕ → Matrix (Fin n) (Fin n) ℚ × List (Matrix (Fin m) (Fin n) ℚ)
  | 0 => (S.costMatrix.Cxx, [])
  | T + 1 =>
    let PK := riccatiList S T
    let K := riccatiGain S PK.1
    (S.costMatrix.Cxx + S.dynamicsMatrix.A.transpose * PK.1 * S.dynamicsMatrix.A +
        S.dynamicsMatrix.A.transpose * PK.1 * S.dynamicsMatrix.B * K,
      K :: PK.2)

/-- The gain sequence `K[0..T-1]` precomputed by LQR construction. -/
def lqrGains (S : LinearQuadraticSystem n m) (T : ℕ) :
    List (Matrix (Fin m) (Fin n) ℚ) :=
  (riccatiList S T).2

/-- The Riccati value matrix `P[t]` of the horizon-`T` problem: it depends
only on the `T - t` steps to go. -/
def lqrP (S : LinearQuadraticSystem n m) (T t : ℕ) :
    Matrix (Fin n) (Fin n) ℚ :=
  (riccatiList S (T - t)).1

/-- Modelled from the spec: the LQR controller's `act(x, t) = K[t]·x`. -/
def lqrAct (S : LinearQuadraticSystem n m) (T : ℕ) (x : Fin n → ℚ) (t : ℕ) :
    Fin m → ℚ :=
  ((lqrGains S T).getD t 0).mulVec x

/-- Modelled from the spec: the MPC controller's `act(x, t)` — solve a
fresh LQR problem of length `predictiveHorizon` clipped to the remaining
steps, apply only the first gain of the resulting sequence (zero action
when the effective horizon is empty). -/
def mpcAct (S : LinearQuadraticSystem n m) (ph T : ℕ) (x : Fin n → ℚ)
    (t : ℕ) : Fin m → ℚ :=
  match (riccatiList S (min ph (T - t))).2 with
  | [] => fun _ => 0
  | K :: _ => K.mulVec x

theorem riccatiList_succ (S : LinearQuadraticSystem n m) (T : ℕ) :
    riccatiList S (T + 1) =
      (S.costMatrix.Cxx +
          S.dynamicsMatrix.A.transpose * (riccatiList S T).1 * S.dynamicsMatrix.A +
          S.dynamicsMatrix.A.transpose * (riccatiList S T).1 * S.dynamicsMatrix.B *
            riccatiGain S (riccatiList S T).1,
        riccatiGain S (riccatiList S T).1 :: (riccatiList S T).2) := by
  simp [riccatiList]

theorem riccatiList_length (S : LinearQuadraticSystem n m) :
    ∀ T, (riccatiList S T).2.length = T := by
  intro T
  induction T with
  | zero => rfl
  | succ T ih => simp [riccatiList_succ, ih]

theorem riccatiList_getD (S : LinearQuadraticSystem n m) :
    ∀ T t, t < T →
      (riccatiList S T).2.getD t 0 =
        riccatiGain S ((riccatiList S (T - t - 1)).1) := by
  intro T
  induction T with
  | zero => intro t ht; exact absurd ht (Nat.not_lt_zero t)
  | succ T ih =>
    intro t ht
    match t with
    | 0 =>
      rw [riccatiList_succ]
      simp
    | t + 1 =>
      have ht' : t < T := Nat.lt_of_succ_lt_succ ht
      have hidx : T + 1 - (t + 1) - 1 = T - t - 1 := by omega
      rw [riccatiList_succ, hidx]
      simpa using ih t ht'

/-- C2: LQR construction computes the backward Riccati recursion with
terminal matrix `P[T] = Cxx` and, for `t < T`,
`K[t] = -(Cuu + Bᵀ·P[t+1]·B)⁻¹·Bᵀ·P[t+1]·A` and
`P[t] = Cxx + Aᵀ·P[t+1]·A + Aᵀ·P[t+1]·B·K[t]`; thereafter
`act(x, t) = K[t]·x`. -/
theorem lqr_riccati_spec (S : LinearQuadraticSystem n m) (T : ℕ) :
    lqrP S T T = S.costMatrix.Cxx ∧
    (∀ t, t < T →
      (lqrGains S T).getD t 0 =
        -(minv (S.costMatrix.Cuu +
            S.dynamicsMatrix.B.transpose * lqrP S T (t + 1) * S.dynamicsMatrix.B)) *
          (S.dynamicsMatrix.B.transpose * lqrP S T (t + 1) * S.dynamicsMatrix.A)) ∧
    (∀ t, t < T →
      lqrP S T t =
        S.costMatrix.Cxx +
          S.dynamicsMatrix.A.transpose * lqrP S T (t + 1) * S.dynamicsMatrix.A +
          S.dynamicsMatrix.A.transpose * lqrP S T (t + 1) * S.dynamicsMatrix.B *
            ((lqrGains S T).getD t 0)) ∧
    (∀ x t, lqrAct S T x t = ((lqrGains S T).getD t 0).mulVec x) := by
  have hK : ∀ t, t < T →
      (lqrGains S T).getD t 0 = riccatiGain S (lqrP S T (t + 1)) := by
    intro t ht
    have h1 : T - (t + 1) = T - t - 1 := by omega
    rw [lqrGains, riccatiList_getD S T t ht, lqrP, h1]
  refine ⟨?_, ?_, ?_, ?_⟩
  · simp [lqrP]
    rfl
  · intro t ht
    rw [hK t ht, riccatiGain]
  · intro t ht
    have h2 : T - t = (T - (t + 1)) + 1 := by omega
    rw [hK t ht, lqrP, lqrP, h2, riccatiList]
  · intro x t
    rfl

/-- Witness for C2: on the double integrator with horizon 2, the gain
`K[0]` equals the closed Riccati formula in `P[1]`. -/
theorem lqr_riccati_spec_witness :
    (lqrGains doubleIntegrator 2).getD 0 0 =
      -(minv (doubleIntegrator.costMatrix.Cuu +
          doubleIntegrator.dynamicsMatrix.B.transpose * lqrP doubleIntegrator 2 1 *
            doubleIntegrator.dynamicsMatrix.B)) *
        (doubleIntegrator.dynamicsMatrix.B.transpose * lqrP doubleIntegrator 2 1 *
          doubleIntegrator.dynamicsMatrix.A) :=
  (lqr_riccati_spec doubleIntegrator 2).2.1 0 (by decide)

/-- C3: when `predictiveHorizon` equals the overall horizon, the MPC
controller produces exactly the LQR controller's action at every time
step `t < T` and state `x` (the receding-horizon solve collapses to the
single-shot LQR solve). -/
theorem mpc_full_horizon_eq_lqr (S : LinearQuadraticSystem n m) (T t : ℕ)
    (ht : t < T) (x : Fin n → ℚ) :
    mpcAct S T T x t = lqrAct S T x t := by
  have hmin : min T (T - t) = T - t := Nat.min_eq_right (Nat.sub_le T t)
  obtain ⟨s, hs⟩ : ∃ s, T - t = s + 1 := ⟨T - t - 1, by omega⟩
  have hs2 : T - t - 1 = s := by omega
  have hhead : (riccatiList S (T - t)).2 =
      riccatiGain S ((riccatiList S s).1) :: (riccatiList S s).2 := by
    rw [hs, riccatiList_succ]
  unfold mpcAct
  rw [hmin, hhead, lqrAct, lqrGains, riccatiList_getD S T t ht, hs2]

/-- Witness for C3: on the double integrator with horizon 3 and
predictive horizon 3, MPC and LQR agree at time 1 and state `[1, 0]`. -/
theorem mpc_full_horizon_eq_lqr_witness :
    mpcAct doubleIntegrator 3 3 ![1, 0] 1 = lqrAct doubleIntegrator 3 ![1, 0] 1 :=
  mpc_full_horizon_eq_lqr doubleIntegrator 3 1 (by decide) ![1, 0]

/-- C1: `simulatePolicy(controller)` initializes `x[0] = x0`, then for each
`t` in `0..T-1` computes `u = controller.act(x[t], t)`, adds
`stageCost(x[t], u)` to the cost accumulator and sets
`x[t+1] = step(x[t], u)`; it returns the trajectory of length `T+1`
together with the scalar total cost. -/
theorem simulatePolicy_loop_spec (S : LinearQuadraticSystem n m)
    (c : Policy n m) (T : ℕ) :
    (simulatePolicy S c T).1.length = T + 1 ∧
    (simulatePolicy S c T).1.getD 0 (fun _ => 0) = S.x0 ∧
    (∀ t, t < T →
      (simulatePolicy S c T).1.getD (t + 1) (fun _ => 0) =
        step S ((simulatePolicy S c T).1.getD t (fun _ => 0))
          (c ((simulatePolicy S c T).1.getD t (fun _ => 0)) t)) ∧
    (simulatePolicy S c T).2 =
      ∑ t ∈ Finset.range T,
        stageCost S ((simulatePolicy S c T).1.getD t (fun _ => 0))
          (c ((simulatePolicy S c T).1.getD t (fun _ => 0)) t) := by
  have hxs : (simulatePolicy S c T).1 = (List.range (T + 1)).map (traj S c) := by
    simp [simulatePolicy, simLoop_eq]
  have hcost : (simulatePolicy S c T).2 = runCost S c T := by
    simp [simulatePolicy, simLoop_eq]
  have hget : ∀ t, t ≤ T →
      (simulatePolicy S c T).1.getD t (fun _ => 0) = traj S c t := by
    intro t ht
    rw [hxs]
    exact getD_range_map _ _ _ _ (Nat.lt_succ_of_le ht)
  refine ⟨by simp [hxs], ?_, ?_, ?_⟩
  · simpa [traj] using hget 0 (Nat.zero_le T)
  · intro t ht
    rw [hget (t + 1) ht, hget t (Nat.le_of_lt ht)]
    rfl
  · rw [hcost, runCost]
    exact Finset.sum_congr rfl fun t ht => by
      rw [hget t (Nat.le_of_lt (Finset.mem_range.mp ht))]

/-- Witness for C1: on the double integrator with the zero controller and
horizon 2, the state at index 1 is the step applied to the state at
index 0. -/
theorem simulatePolicy_loop_spec_witness :
    (simulatePolicy doubleIntegrator zeroPolicy 2).1.getD 1 (fun _ => 0) =
      step doubleIntegrator
        ((simulatePolicy doubleIntegrator zeroPolicy 2).1.getD 0 (fun _ => 0))
        (zeroPolicy
          ((simulatePolicy doubleIntegrator zeroPolicy 2).1.getD 0 (fun _ => 0))
          0) :=
  (simulatePolicy_loop_spec doubleIntegrator zeroPolicy 2).2.2.1 0 (by decide)

/-- C4: `step` is linear in its pair of arguments, and equals the pure
function `A·x + B·u` of its inputs. -/
theorem step_linear (S : LinearQuadraticSystem n m) (a b : ℚ)
    (x1 x2 : Fin n → ℚ) (u1 u2 : Fin m → ℚ) :
    step S (a • x1 + b • x2) (a • u1 + b • u2) =
      a • step S x1 u1 + b • step S x2 u2 ∧
    (∀ x u, step S x u =
      S.dynamicsMatrix.A.mulVec x + S.dynamicsMatrix.B.mulVec u) := by
  constructor
  · simp only [step, Matrix.mulVec_add, Matrix.mulVec_smul, smul_add]
    abel
  · intro x u
    rfl

/-- C7: LQR construction is deterministic — identical dynamics and cost
matrices yield gain sequences identical element for element. -/
theorem lqr_gains_deterministic (S1 S2 : LinearQuadraticSystem n m)
    (hA : S1.dynamicsMatrix.A = S2.dynamicsMatrix.A)
    (hB : S1.dynamicsMatrix.B = S2.dynamicsMatrix.B)
    (hCxx : S1.costMatrix.Cxx = S2.costMatrix.Cxx)
    (hCuu : S1.costMatrix.Cuu = S2.costMatrix.Cuu)
    (T t : ℕ) (i : Fin m) (j : Fin n) :
    ((lqrGains S1 T).getD t 0) i j = ((lqrGains S2 T).getD t 0) i j := by
  have hgain : ∀ P, riccatiGain S1 P = riccatiGain S2 P := by
    intro P
    rw [riccatiGain, riccatiGain, hA, hB, hCuu]
  have hr : ∀ k, riccatiList S1 k = riccatiList S2 k := by
    intro k
    induction k with
    | zero => simp [riccatiList, hCxx]
    | succ k ih =>
      rw [riccatiList_succ, riccatiList_succ, ih, hgain, hA, hB, hCxx]
  rw [lqrGains, lqrGains, hr T]

/-- Witness for C7: constructing the double-integrator LQR twice gives the
same gain entry. -/
theorem lqr_gains_deterministic_witness :
    ((lqrGains doubleIntegrator 1).getD 0 0) 0 0 =
      ((lqrGains doubleIntegrator 1).getD 0 0) 0 0 :=
  lqr_gains_deterministic doubleIntegrator doubleIntegrator rfl rfl rfl rfl 1 0 0 0

/-- C8: a `simulatePolicy` run leaves the system's owned state — its
`DynamicsMatrix`, `CostMatrix`, `dt` and `x0` — unchanged: the system
threaded through the whole simulation loop is the one it started with. -/
theorem simulatePolicy_frame (S : LinearQuadraticSystem n m)
    (c : Policy n m) (T : ℕ) :
    (simLoop S c T).sys.dynamicsMatrix = S.dynamicsMatrix ∧
    (simLoop S c T).sys.costMatrix = S.costMatrix ∧
    (simLoop S c T).sys.dt = S.dt ∧
    (simLoop S c T).sys.x0 = S.x0 := by
  have h : (simLoop S c T).sys = S := by rw [simLoop_eq]
  exact ⟨by rw [h], by rw [h], by rw [h], by rw [h]⟩

/-- Modelled from the spec: the exponent arguments `-cost_k / klWeight` of
the sampling controller's importance weights. -/
def expArgs {K : ℕ} (klWeight : ℚ) (cost : Fin (K + 1) → ℚ) (k : Fin (K + 1)) :
    ℚ :=
  -(cost k) / klWeight

/-- Modelled from the spec: the maximum exponent argument, subtracted
before exponentiating for numerical stability. -/
def maxExpArg {K : ℕ} (klWeight : ℚ) (cost : Fin (K + 1) → ℚ) : ℚ :=
  Finset.univ.sup' Finset.univ_nonempty (expArgs klWeight cost)

/-- Modelled from the spec: the unnormalized importance weights
`e(-cost_k/klWeight - M)` after subtracting the maximum exponent argument
`M`; the exponential is an abstract parameter `e` so that exact
arithmetic replaces floating point. -/
def rawWeights {K : ℕ} (e : ℚ → ℚ) (klWeight : ℚ) (cost : Fin (K + 1) → ℚ)
    (k : Fin (K + 1)) : ℚ :=
  e (expArgs klWeight cost k - maxExpArg klWeight cost)

/-- Modelled from the spec: the normalized importance weights of
`SamplingControl`. -/
def normWeights {K : ℕ} (e : ℚ → ℚ) (klWeight : ℚ) (cost : Fin (K + 1) → ℚ)
    (k : Fin (K + 1)) : ℚ :=
  rawWeights e klWeight cost k / ∑ j, rawWeights e klWeight cost j

/-- C5: for every finite nonempty family of sampled costs, the normalized
importance weights sum to exactly 1, and — the exact-arithmetic content
of overflow-freedom — every unnormalized weight lies in `(0, 1]` because
the maximum exponent argument is subtracted before exponentiating.  The
exponential is any monotone positive function with `e 0 = 1`, which
`exp` is. -/
theorem normWeights_sum_one {K : ℕ} (e : ℚ → ℚ) (klWeight : ℚ)
    (cost : Fin (K + 1) → ℚ) (hpos : ∀ q, 0 < e q) (hmono : Monotone e)
    (hone : e 0 = 1) :
    (∑ k, normWeights e klWeight cost k) = 1 ∧
    (∀ k, 0 < rawWeights e klWeight cost k ∧
      rawWeights e klWeight cost k ≤ 1) := by
  have hsum : 0 < ∑ j, rawWeights e klWeight cost j :=
    Finset.sum_pos (fun j _ => hpos _) Finset.univ_nonempty
  constructor
  · rw [show (∑ k, normWeights e klWeight cost k) =
        (∑ k, rawWeights e klWeight cost k) /
          (∑ j, rawWeights e klWeight cost j) from by
      rw [Finset.sum_div]
      rfl]
    exact div_self (ne_of_gt hsum)
  · intro k
    refine ⟨hpos _, ?_⟩
    have harg : expArgs klWeight cost k - maxExpArg klWeight cost ≤ 0 := by
      have hle : expArgs klWeight cost k ≤ maxExpArg klWeight cost :=
        Finset.le_sup' (expArgs klWeight cost) (Finset.mem_univ k)
      linarith
    calc rawWeights e klWeight cost k
        ≤ e 0 := hmono harg
      _ = 1 := hone

/-- Witness for C5: three concrete costs with the constant-one stand-in
for the exponential. -/
theorem normWeights_sum_one_witness :
    (∑ k, normWeights (fun _ => 1) 1 ![5, 1000000, 3] k) = 1 ∧
    (∀ k, 0 < rawWeights (fun _ => 1) 1 ![5, 1000000, 3] k ∧
      rawWeights (fun _ => 1) 1 ![5, 1000000, 3] k ≤ 1) :=
  normWeights_sum_one (fun _ => 1) 1 ![5, 1000000, 3]
    (fun _ => one_pos) monotone_const rfl

/-- The error taxonomy of the spec's construction-time failures. -/
inductive BuildError where
  | invalidDimension
  deriving DecidableEq

/-- Modelled from the spec: `buildDynamicsMatrix(A, B)` over plain
numeric arrays (lists of rows) — the dimensions must agree (`A` square of
size `n`, `B` with `n` rows of one common width `m`) or construction
fails with `InvalidDimension`. -/
def buildDynamicsMatrix (A B : List (List ℚ)) :
    Except BuildError (List (List ℚ) × List (List ℚ)) :=
  if A.length = B.length ∧ (∀ r ∈ A, r.length = A.length) ∧
      (∀ r ∈ B, r.length = (B.headD []).length) then
    Except.ok (A, B)
  else
    Except.error BuildError.invalidDimension

/-- C6: whenever the row counts of `A` and `B` disagree, construction of
the dynamics bundle fails with `InvalidDimension` and produces no usable
result. -/
theorem buildDynamicsMatrix_mismatch (A B : List (List ℚ))
    (h : A.length ≠ B.length) :
    buildDynamicsMatrix A B = Except.error BuildError.invalidDimension := by
  rw [buildDynamicsMatrix, if_neg]
  intro hc
  exact h hc.1

/-- Witness for C6: a 2-row `A` with a 1-row `B` is rejected. -/
theorem buildDynamicsMatrix_mismatch_witness :
    buildDynamicsMatrix [[1, 1/10], [0, 1]] [[0]] =
      Except.error BuildError.invalidDimension :=
  buildDynamicsMatrix_mismatch [[1, 1/10], [0, 1]] [[0]] (by decide)

/-! ## The `Function` utility (embedded from `SimInterface/Function.py`)

Variables are Python objects mutated in place by `Function.__init__`
(`v.Child = self`, `v.Parent = self`), so they are embedded as records in
an explicitly threaded store indexed by variable identity. -/

/-- A variable object: its label, its data, and the `Child` / `Parent`
links written by `Function.__init__`. -/
structure VarRec where
  label : String
  data : List ℚ
  Child : Option ℕ
  Parent : Option ℕ

/-- The store of variable objects, indexed by object identity. -/
def Env : Type :=
  ℕ → VarRec

/-- An `InputVars` / `OutputVars` argument: either a single variable or a
tuple of variables, as discriminated by `isinstance(·, tuple)`. -/
inductive VarArg where
  | single (v : ℕ)
  | tup (vs : List ℕ)

/-- The tuple stored by `__init__`: a tuple argument is kept as is, a
single variable is wrapped as a one-element tuple. -/
def argList : VarArg → List ℕ
  | VarArg.single v => [v]
  | VarArg.tup vs => vs

/-- A constructed `Function` object: its label, the `InputVars` and
`OutputVars` tuples, and the concatenated input/output data. -/
structure FunRec where
  label : String
  InputVars : List ℕ
  OutputVars : List ℕ
  InputData : List ℚ
  OutputData : List ℚ

/-- `v.Child = self` for one variable object. -/
def setChild (fid : ℕ) (env : Env) (v : ℕ) : Env :=
  fun w => if w = v then { env w with Child := some fid } else env w

/-- `v.Parent = self` for one variable object. -/
def setParent (fid : ℕ) (env : Env) (v : ℕ) : Env :=
  fun w => if w = v then { env w with Parent := some fid } else env w

/-- The concatenation performed by `pd.concat` on the variables' data. -/
def concatData (env : Env) (vs : List ℕ) : List ℚ :=
  (vs.map fun v => (env v).data).flatten

/-- `Function.__init__`: wrap `InputVars` into a tuple unless it is one,
compute `InputData` (`setInputData`), set `v.Child = self` on every input
variable, wrap `OutputVars` likewise while computing `OutputData`, and
set `v.Parent = self` on every output variable.  `fid` is the identity of
the new `Function` object. -/
def mkFunction (env : Env) (fid : ℕ) (inA outA : VarArg) (lab : String) :
    Env × FunRec :=
  let ivs := argList inA
  let inData := concatData env ivs
  let env1 := ivs.foldl (setChild fid) env
  let ovs := argList outA
  let outData :=
    match outA with
    | VarArg.tup vs => concatData env1 vs
    | VarArg.single v => (env1 v).data
  let env2 := ovs.foldl (setParent fid) env1
  (env2, ⟨lab, ivs, ovs, inData, outData⟩)

/-- C9: after every construction, the `InputVars` and `OutputVars`
attributes are tuples: a tuple argument is stored unchanged and a single
non-tuple argument is wrapped into a one-element tuple, in both
positions. -/
theorem mkFunction_vars_are_tuples (env : Env) (fid : ℕ) (lab : String)
    (v w : ℕ) (vs ws : List ℕ) :
    (mkFunction env fid (VarArg.single v) (VarArg.single w) lab).2.InputVars
        = [v] ∧
    (mkFunction env fid (VarArg.single v) (VarArg.single w) lab).2.OutputVars
        = [w] ∧
    (mkFunction env fid (VarArg.tup vs) (VarArg.tup ws) lab).2.InputVars
        = vs ∧
    (mkFunction env fid (VarArg.tup vs) (VarArg.tup ws) lab).2.OutputVars
        = ws :=
  ⟨rfl, rfl, rfl, rfl⟩

theorem foldl_setChild_eq (fid : ℕ) :
    ∀ (l : List ℕ) (env : Env) (v : ℕ),
      ((l.foldl (setChild fid) env) v).Child =
        if v ∈ l then some fid else (env v).Child := by
  intro l
  induction l with
  | nil => intro env v; simp
  | cons a t ih =>
    intro env v
    rw [List.foldl_cons, ih]
    by_cases hvt : v ∈ t
    · simp [hvt]
    · by_cases hva : v = a
      · simp [hvt, hva, setChild]
      · simp [hvt, hva, setChild]

theorem foldl_setParent_eq (fid : ℕ) :
    ∀ (l : List ℕ) (env : Env) (v : ℕ),
      ((l.foldl (setParent fid) env) v).Parent =
        if v ∈ l then some fid else (env v).Parent := by
  intro l
  induction l with
  | nil => intro env v; simp
  | cons a t ih =>
    intro env v
    rw [List.foldl_cons, ih]
    by_cases hvt : v ∈ t
    · simp [hvt]
    · by_cases hva : v = a
      · simp [hvt, hva, setParent]
      · simp [hvt, hva, setParent]

theorem foldl_setParent_Child (fid : ℕ) :
    ∀ (l : List ℕ) (env : Env) (v : ℕ),
      ((l.foldl (setParent fid) env) v).Child = (env v).Child := by
  intro l
  induction l with
  | nil => intro env v; rfl
  | cons a t ih =>
    intro env v
    rw [List.foldl_cons, ih]
    by_cases hva : v = a
    · simp [setParent, hva]
    · simp [setParent, hva]

/-- C10: construction wires the dependency graph as a side effect on its
arguments — in the store returned by `mkFunction`, every input variable's
`Child` and every output variable's `Parent` is the new function. -/
theorem mkFunction_wires_graph (env : Env) (fid : ℕ) (inA outA : VarArg)
    (lab : String) :
    (∀ v ∈ argList inA,
      ((mkFunction env fid inA outA lab).1 v).Child = some fid) ∧
    (∀ v ∈ argList outA,
      ((mkFunction env fid inA outA lab).1 v).Parent = some fid) := by
  constructor
  · intro v hv
    show (((argList outA).foldl (setParent fid)
        ((argList inA).foldl (setChild fid) env)) v).Child = some fid
    rw [foldl_setParent_Child, foldl_setChild_eq]
    simp [hv]
  · intro v hv
    show (((argList outA).foldl (setParent fid)
        ((argList inA).foldl (setChild fid) env)) v).Parent = some fid
    rw [foldl_setParent_eq]
    simp [hv]

/-- Witness for C10: a concrete store with input variable `0` and output
variables `1, 2`; variable `0` gets `Child` set and variable `2` gets
`Parent` set to the new function `7`. -/
theorem mkFunction_wires_graph_witness :
    ((mkFunction (fun _ => ⟨"x", [], none, none⟩) 7 (VarArg.single 0)
        (VarArg.tup [1, 2]) "Fun").1 0).Child = some 7 ∧
    ((mkFunction (fun _ => ⟨"x", [], none, none⟩) 7 (VarArg.single 0)
        (VarArg.tup [1, 2]) "Fun").1 2).Parent = some 7 :=
  ⟨(mkFunction_wires_graph (fun _ => ⟨"x", [], none, none⟩) 7
      (VarArg.single 0) (VarArg.tup [1, 2]) "Fun").1 0 (by decide),
    (mkFunction_wires_graph (fun _ => ⟨"x", [], none, none⟩) 7
      (VarArg.single 0) (VarArg.tup [1, 2]) "Fun").2 2 (by decide)⟩

end SimInterface
